import Mathlib

/-!
Shallow embedding of the Deye Modbus proxy (`proxy.py`): the register data
model, the word decoder `combine_words`, the read planner `merge_ranges`,
the polling cycle `refresh_cache` with its circuit breaker, and the
per-measurement object construction of the HTTP GET handler.

Python machine integers are modelled as `ℤ`/`ℕ` with explicit `% 65536`
masks; Python floats (scale factors, timestamps) are modelled as exact
rationals `ℚ`; Python dicts are modelled as insertion-ordered association
lists with first-match lookup, matching Python dict semantics.
-/

namespace DeyeProxy

/-- One entry of the register map (`RegSpec` dataclass in the source).
Addresses and counts are Python ints, hence `ℤ`. -/
structure RegSpec where
  id : String
  address : ℤ
  count : ℤ := 1
  func : String := "holding"
  dtype : String := "uint16"
  byte_order : String := "AB"
  multiply : ℚ := 1
  offset : ℚ := 0
  measurement : String := "deye"
  field_name : String := ""
  tags : List (String × String) := []
deriving DecidableEq, Repr

/-- Python dict assignment `d[k] = v`: update in place if the key is
present (keeping its position), else append at the end. -/
def dictSet {α : Type} : List (String × α) → String → α → List (String × α)
  | [], k, v => [(k, v)]
  | (k', v') :: rest, k, v =>
      if k' = k then (k', v) :: rest else (k', v') :: dictSet rest k v

/-- Python dict lookup `d[k]` (first — and in a dict, only — match). -/
def dictGet {α : Type} (k : String) : List (String × α) → Option α
  | [] => none
  | (k', v) :: rest => if k' = k then some v else dictGet k rest

/-- Fields of one measurement: field name → decoded value. -/
abbrev Fields := List (String × ℚ)

/-- The cache snapshot: measurement → fields. -/
abbrev Cache := List (String × Fields)

/-- `combine_words(words, dtype, byte_order)` from the source.  On the
`ℕ` words the program feeds it, `w & 0xFFFF` is `w % 65536`; the sign-bit
tests `val & 0x8000` / `val & 0x80000000` on the already-masked value are
the threshold tests written here. -/
def combine_words : List ℕ → String → String → ℤ
  | [w], dtype, _ =>
      let val := w % 65536
      if dtype = "int16" ∧ 32768 ≤ val then (val : ℤ) - 65536 else (val : ℤ)
  | [a, b], dtype, byte_order =>
      let w0 := a % 65536
      let w1 := b % 65536
      let hi := if byte_order = "CDAB" then w1 else w0
      let lo := if byte_order = "CDAB" then w0 else w1
      let val := hi * 65536 + lo
      if dtype = "int32" ∧ 2147483648 ≤ val then (val : ℤ) - 4294967296
      else (val : ℤ)
  | ws, _, _ => ((ws.foldl (fun acc w => acc * 65536 + w % 65536) 0 : ℕ) : ℤ)

/-- `apply_scale_offset(raw, multiply, offset)`. -/
def apply_scale_offset (raw : ℤ) (multiply offset : ℚ) : ℚ :=
  (raw : ℚ) * multiply + offset

/-- Python `round` to an integer: round half to even. -/
def pyRound (x : ℚ) : ℤ :=
  let f := Rat.floor x
  if x - f < 1 / 2 then f
  else if 1 / 2 < x - f then f + 1
  else if f % 2 = 0 then f else f + 1

/-- Python `round(val, d)`: round to `d` decimal digits, half to even. -/
def roundTo (d : ℕ) (x : ℚ) : ℚ :=
  (pyRound (x * (10 : ℚ) ^ d) : ℚ) / (10 : ℚ) ^ d

/-- The output field key: `spec.field_name or spec.id` (empty string is
falsy in Python). -/
def fieldKey (s : RegSpec) : String :=
  if s.field_name = "" then s.id else s.field_name

/-- Sort key of `sorted(specs, key=lambda s: s.address)`. -/
def byAddress (a b : RegSpec) : Prop := a.address ≤ b.address

instance : DecidableRel byAddress := fun a b => by
  unfold byAddress; infer_instance

instance : IsTotal RegSpec byAddress :=
  ⟨fun a b => le_total a.address b.address⟩

instance : IsTrans RegSpec byAddress :=
  ⟨fun _ _ _ hab hbc => le_trans hab hbc⟩

/-- One read plan: `(start, qty, members)`. -/
abbrev Plan := ℤ × ℤ × List RegSpec

/-- The two nested `while` loops of `merge_ranges`: the running group is
`[start, e]` with members `grp` (accumulated in reverse). -/
def mergeAux : ℤ → ℤ → List RegSpec → List RegSpec → List Plan
  | start, e, grp, [] => [(start, e - start + 1, grp.reverse)]
  | start, e, grp, nxt :: rest =>
      let nxtEnd := nxt.address + nxt.count - 1
      if nxt.address ≤ e + 2 ∧ nxtEnd - start + 1 ≤ 120 then
        mergeAux start (max e nxtEnd) (nxt :: grp) rest
      else
        (start, e - start + 1, grp.reverse) :: mergeAux nxt.address nxtEnd [nxt] rest

/-- `merge_ranges(specs)` from the source: sort by address, then greedily
group near-contiguous specs subject to the 120-word merge ceiling. -/
def merge_ranges (specs : List RegSpec) : List Plan :=
  match List.insertionSort byAddress specs with
  | [] => []
  | s :: rest => mergeAux s.address (s.address + s.count - 1) [s] rest

/-- The assembled address → word map of one register bank. -/
abbrev AddrMap := ℤ → Option ℕ

/-- The per-cycle environment: the external transport.  `connectOk` is
false when the lazy construct-and-connect of the transport client raises
(`NoSocketAvailableError`/`OSError`/timeout); `read f start qty` is one
`read_holding_registers`/`read_input_registers` call under
`asyncio.wait_for`, returning `.error ()` on a transport, framing or
timeout error; `commitTime` is the event-loop time taken at commit. -/
structure Env where
  connectOk : Bool
  read : String → ℤ → ℤ → Except Unit (List ℕ)
  commitTime : ℚ

/-- The configuration knobs the cycle reads: `CB_FAIL_LIMIT`,
`CB_OPEN_SECONDS`, `ROUND_DECIMALS`. -/
structure Config where
  failLimit : ℕ
  openSeconds : ℚ
  decimals : ℕ

/-- The fields of the global `STATE` that the refresh cycle and the HTTP
handlers touch. -/
structure AppState where
  regs : List RegSpec
  cache : Cache
  cache_ts : ℚ
  breaker_failures : ℕ
  breaker_open_until : ℚ
deriving DecidableEq

/-- `for idx, val in enumerate(regs): addr2word[start+idx] = int(val) & 0xFFFF`. -/
def storeWords (m : AddrMap) (start : ℤ) (ws : List ℕ) : AddrMap :=
  ws.enum.foldl
    (fun acc iv => fun a => if a = start + (iv.1 : ℤ) then some (iv.2 % 65536) else acc a)
    m

/-- `read_plan(client, plan, func, req_timeout)`: one transport read per
planned range, folded into an address → word map; any read error aborts. -/
def read_plan (env : Env) (plan : List Plan) (func : String) : Except Unit AddrMap :=
  plan.foldlM
    (fun m p => do
      let ws ← env.read func p.1 p.2.1
      pure (storeWords m p.1 ws))
    (fun _ => none)

/-- The `plans` list and the `all_words[func] = await read_plan(...)` loop
of `refresh_cache`: `holding` first, then `input`, each only if non-empty. -/
def assembleWords (env : Env) (regs : List RegSpec) : Except Unit (String → Option AddrMap) :=
  let holding := regs.filter (fun s => s.func = "holding")
  let inputr := regs.filter (fun s => s.func = "input")
  let plans :=
    (if holding.isEmpty then [] else [(("holding" : String), merge_ranges holding)]) ++
    (if inputr.isEmpty then [] else [(("input" : String), merge_ranges inputr)])
  plans.foldlM
    (fun aw fp => do
      let m ← read_plan env fp.2 fp.1
      pure (fun k => if k = fp.1 then some m else aw k))
    (fun _ => none)

/-- Decoding one spec inside the `for spec in STATE.regs` loop: pick its
bank (a missing bank is a `KeyError`), gather its words (a missing address
is a `KeyError`), combine, scale and round. -/
def decodeSpec (decimals : ℕ) (aw : String → Option AddrMap) (spec : RegSpec) :
    Except Unit ℚ := do
  let source ←
    match aw (if spec.func = "holding" then "holding" else "input") with
    | some m => pure m
    | none => throw ()
  let words ← (List.range spec.count.toNat).mapM
    (fun off =>
      match source (spec.address + (off : ℤ)) with
      | some w => pure w
      | none => throw ())
  let raw := combine_words words spec.dtype spec.byte_order
  pure (roundTo decimals (apply_scale_offset raw spec.multiply spec.offset))

/-- `m = new_cache.setdefault(spec.measurement, {}); m[key] = val`. -/
def cacheInsert : Cache → String → String → ℚ → Cache
  | [], meas, k, v => [(meas, [(k, v)])]
  | (m', fs) :: rest, meas, k, v =>
      if m' = meas then (m', dictSet fs k v) :: rest
      else (m', fs) :: cacheInsert rest meas k v

/-- The snapshot-building loop of `refresh_cache` over all specs. -/
def buildCacheAux (decimals : ℕ) (aw : String → Option AddrMap) :
    List RegSpec → Cache → Except Unit Cache
  | [], c => pure c
  | s :: rest, c => do
      let v ← decodeSpec decimals aw s
      buildCacheAux decimals aw rest (cacheInsert c s.measurement (fieldKey s) v)

/-- The fallible body of `refresh_cache`'s `try` block: connect if
needed, read every planned range, decode every spec into a fresh
snapshot.  Every caught exception class (`V5FrameError`,
`NoSocketAvailableError`, `asyncio.TimeoutError`, `KeyError`, `OSError`)
is an `.error ()`. -/
def runCycle (cfg : Config) (env : Env) (regs : List RegSpec) : Except Unit Cache := do
  if env.connectOk = false then throw ()
  let aw ← assembleWords env regs
  buildCacheAux cfg.decimals aw regs []

/-- One tick of `refresh_cache` as a state transition: skip when the
breaker is open; on success atomically swap the snapshot, stamp it, and
reset the failure count; on failure count the failure and possibly open
the breaker. -/
def refreshCache (cfg : Config) (env : Env) (now : ℚ) (s : AppState) : AppState :=
  if s.breaker_open_until > now then s
  else
    match runCycle cfg env s.regs with
    | .ok c =>
        { s with cache := c, cache_ts := env.commitTime, breaker_failures := 0 }
    | .error _ =>
        let f := s.breaker_failures + 1
        { s with
          breaker_failures := f
          breaker_open_until :=
            if cfg.failLimit ≤ f then now + cfg.openSeconds
            else s.breaker_open_until }

/-- A JSON value appearing in the GET `/deye-registers` payload. -/
inductive JVal where
  | str : String → JVal
  | num : ℚ → JVal
deriving DecidableEq

/-- One payload entry of `handle_get`:
`obj = {"name": meas}; obj.update(fields)`. -/
def buildObj (meas : String) (fields : Fields) : List (String × JVal) :=
  fields.foldl (fun obj kv => dictSet obj kv.1 (JVal.num kv.2))
    [(("name" : String), JVal.str meas)]

/-- The full `handle_get` payload: one object per cached measurement, in
cache order. -/
def handle_get (c : Cache) : List (List (String × JVal)) :=
  c.map (fun p => buildObj p.1 p.2)

/-- Looking up a field of a measurement in a snapshot. -/
def lookupField (c : Cache) (m k : String) : Option ℚ :=
  (dictGet m c).bind (dictGet k)

/-! ## Concrete fixtures used to instantiate the theorems -/

/-- An environment whose connect step fails (device unreachable). -/
def failEnv : Env := ⟨false, fun _ _ _ => .error (), 0⟩

/-- An environment whose every read returns the word 7 for each address. -/
def okEnv : Env := ⟨true, fun _ _ qty => .ok (List.replicate qty.toNat 7), 42⟩

/-- A fresh state: no specs, empty cache, closed breaker. -/
def emptyState : AppState := ⟨[], [], 0, 0, 0⟩

/-- A state whose breaker is open until t = 5. -/
def openState : AppState := ⟨[], [], 0, 0, 5⟩

/-- Two specs sharing measurement `deye` and field key `f`. -/
def specA : RegSpec := { id := "a", address := 0, count := 1, multiply := 1, field_name := "f" }

/-- Same key as `specA` but a different scale, so a different value. -/
def specB : RegSpec := { id := "b", address := 0, count := 1, multiply := 2, field_name := "f" }

/-- Two disjoint single-value specs. -/
def specC : RegSpec := { id := "c", address := 0, count := 1 }

/-- Second disjoint spec, 10 registers after `specC`. -/
def specD : RegSpec := { id := "d", address := 10, count := 2 }

/-- A spec wider than the 120-word batching ceiling. -/
def specBig : RegSpec := { id := "big", address := 0, count := 121 }

/-! ## Dictionary lemmas -/

theorem dictGet_dictSet_self {α : Type} (l : List (String × α)) (k : String) (v : α) :
    dictGet k (dictSet l k v) = some v := by
  induction l with
  | nil => simp [dictSet, dictGet]
  | cons kv rest ih =>
      by_cases h : kv.1 = k
      · obtain ⟨k', v'⟩ := kv
        simp only at h
        simp [dictSet, dictGet, h]
      · obtain ⟨k', v'⟩ := kv
        simp only at h
        simp [dictSet, dictGet, h, ih]

theorem dictGet_dictSet_other {α : Type} (l : List (String × α)) (k k' : String) (v : α)
    (h : k' ≠ k) : dictGet k' (dictSet l k v) = dictGet k' l := by
  induction l with
  | nil => simp [dictSet, dictGet, Ne.symm h]
  | cons kv rest ih =>
      obtain ⟨k0, v0⟩ := kv
      by_cases h0 : k0 = k
      · subst h0
        simp [dictSet, dictGet, Ne.symm h]
      · simp [dictSet, dictGet, h0, ih]

theorem dictGet_cacheInsert_self (c : Cache) (m k : String) (v : ℚ) :
    dictGet m (cacheInsert c m k v) =
      some (dictSet ((dictGet m c).getD []) k v) := by
  induction c with
  | nil => simp [cacheInsert, dictGet, dictSet]
  | cons p rest ih =>
      obtain ⟨m0, fs0⟩ := p
      by_cases h0 : m0 = m
      · subst h0
        simp [cacheInsert, dictGet]
      · simp [cacheInsert, dictGet, h0, ih]

theorem dictGet_cacheInsert_other (c : Cache) (m m' k : String) (v : ℚ)
    (h : m' ≠ m) : dictGet m' (cacheInsert c m k v) = dictGet m' c := by
  induction c with
  | nil => simp [cacheInsert, dictGet, Ne.symm h]
  | cons p rest ih =>
      obtain ⟨m0, fs0⟩ := p
      by_cases h0 : m0 = m
      · subst h0
        simp [cacheInsert, dictGet, Ne.symm h]
      · simp [cacheInsert, dictGet, h0, ih]

theorem lookupField_cacheInsert_self (c : Cache) (m k : String) (v : ℚ) :
    lookupField (cacheInsert c m k v) m k = some v := by
  simp [lookupField, dictGet_cacheInsert_self, dictGet_dictSet_self]

theorem lookupField_cacheInsert_preserve (c : Cache) (m k mu ku : String) (v w : ℚ)
    (hv : lookupField c m k = some v) (hne : ¬(mu = m ∧ ku = k)) :
    lookupField (cacheInsert c mu ku w) m k = some v := by
  by_cases hm : mu = m
  · have hk : ku ≠ k := fun he => hne ⟨hm, he⟩
    obtain ⟨fs, hfs, hget⟩ : ∃ fs, dictGet m c = some fs ∧ dictGet k fs = some v := by
      cases hg : dictGet m c with
      | none => simp [lookupField, hg] at hv
      | some fs => exact ⟨fs, rfl, by simpa [lookupField, hg] using hv⟩
    subst hm
    simp [lookupField, dictGet_cacheInsert_self, hfs,
      dictGet_dictSet_other _ _ _ _ (Ne.symm hk), hget]
  · simpa [lookupField, dictGet_cacheInsert_other _ _ _ _ _ (Ne.symm hm)] using hv

/-! ## C10: the GET handler's measurement object -/

theorem buildObj_step_dictGet (fields : Fields) (obj : List (String × JVal)) (k : String)
    (h : ∀ kv ∈ fields, kv.1 ≠ k) :
    dictGet k (fields.foldl (fun o kv => dictSet o kv.1 (JVal.num kv.2)) obj) =
      dictGet k obj := by
  induction fields generalizing obj with
  | nil => rfl
  | cons kv rest ih =>
      simp only [List.foldl_cons]
      rw [ih _ (fun x hx => h x (List.mem_cons_of_mem _ hx)),
        dictGet_dictSet_other _ _ _ _ (fun he => h kv (List.mem_cons_self _ _) he.symm)]

theorem buildObj_dictGet_hit (fields : Fields) (obj : List (String × JVal)) (k : String)
    (v : ℚ) (hnodup : (fields.map Prod.fst).Nodup) (hv : dictGet k fields = some v) :
    dictGet k (fields.foldl (fun o kv => dictSet o kv.1 (JVal.num kv.2)) obj) =
      some (JVal.num v) := by
  induction fields generalizing obj with
  | nil => simp [dictGet] at hv
  | cons kv rest ih =>
      obtain ⟨k0, v0⟩ := kv
      simp only [List.foldl_cons]
      by_cases h0 : k0 = k
      · subst h0
        have hv0 : v0 = v := by simpa [dictGet] using hv
        subst hv0
        have hnotin : ∀ kv ∈ rest, kv.1 ≠ k0 := by
          intro x hx he
          simp only [List.map_cons, List.nodup_cons] at hnodup
          exact hnodup.1 (he ▸ List.mem_map_of_mem Prod.fst hx)
        rw [buildObj_step_dictGet _ _ _ hnotin, dictGet_dictSet_self]
      · have hv' : dictGet k rest = some v := by simpa [dictGet, h0] using hv
        simp only [List.map_cons, List.nodup_cons] at hnodup
        exact ih _ hnodup.2 hv'

/-! ## Snapshot-building lemmas -/

theorem ebind_ok {α β : Type} (v : α) (f : α → Except Unit β) :
    (Except.ok v : Except Unit α) >>= f = f v := rfl

theorem ebind_error {α β : Type} (e : Unit) (f : α → Except Unit β) :
    (Except.error e : Except Unit α) >>= f = Except.error e := rfl

theorem ebindD_ok {α β : Type} (v : α) (f : α → Except Unit β) :
    (Except.ok v : Except Unit α).bind f = f v := rfl

theorem ebindD_error {α β : Type} (e : Unit) (f : α → Except Unit β) :
    (Except.error e : Except Unit α).bind f = Except.error e := rfl

theorem epure {α : Type} (v : α) : (pure v : Except Unit α) = Except.ok v := rfl

theorem buildCacheAux_append (d : ℕ) (aw : String → Option AddrMap)
    (xs ys : List RegSpec) (c : Cache) :
    buildCacheAux d aw (xs ++ ys) c =
      (buildCacheAux d aw xs c).bind (fun c' => buildCacheAux d aw ys c') := by
  induction xs generalizing c with
  | nil => rfl
  | cons s xs ih =>
      simp only [List.cons_append, buildCacheAux]
      cases h : decodeSpec d aw s with
      | ok v => rw [ebind_ok, ebind_ok]; exact ih _
      | error e => rw [ebind_error, ebind_error, ebindD_error]

theorem buildCacheAux_ok_split (d : ℕ) (aw : String → Option AddrMap)
    (xs ys : List RegSpec) (c cout : Cache)
    (h : buildCacheAux d aw (xs ++ ys) c = .ok cout) :
    ∃ cmid, buildCacheAux d aw xs c = .ok cmid ∧
      buildCacheAux d aw ys cmid = .ok cout := by
  rw [buildCacheAux_append] at h
  cases h1 : buildCacheAux d aw xs c with
  | ok cmid => rw [h1, ebindD_ok] at h; exact ⟨cmid, rfl, h⟩
  | error e => rw [h1, ebindD_error] at h; exact absurd h (by simp)

theorem buildCacheAux_preserve (d : ℕ) (aw : String → Option AddrMap)
    (m k : String) (v : ℚ) (ys : List RegSpec) :
    ∀ (c cout : Cache), buildCacheAux d aw ys c = .ok cout →
      (∀ u ∈ ys, ¬(u.measurement = m ∧ fieldKey u = k)) →
      lookupField c m k = some v → lookupField cout m k = some v := by
  induction ys with
  | nil =>
      intro c cout h _ hv
      have hce : c = cout := by simpa [buildCacheAux, epure] using h
      exact hce ▸ hv
  | cons u ys ih =>
      intro c cout h hu hv
      cases hd : decodeSpec d aw u with
      | error e => rw [buildCacheAux, hd, ebind_error] at h; exact absurd h (by simp)
      | ok w =>
          rw [buildCacheAux, hd, ebind_ok] at h
          exact ih _ _ h (fun x hx => hu x (List.mem_cons_of_mem _ hx))
            (lookupField_cacheInsert_preserve _ _ _ _ _ _ _ hv
              (hu u (List.mem_cons_self _ _)))

theorem runCycle_ok_parts (cfg : Config) (env : Env) (regs : List RegSpec) (c : Cache)
    (h : runCycle cfg env regs = .ok c) :
    ∃ aw, assembleWords env regs = .ok aw ∧
      buildCacheAux cfg.decimals aw regs [] = .ok c := by
  unfold runCycle at h
  cases hcb : env.connectOk with
  | false =>
      rw [hcb] at h
      simp only [show ((false = false) = True) by simp, if_true] at h
      rw [show (throw () : Except Unit PUnit) = Except.error () from rfl, ebind_error] at h
      exact absurd h (by simp)
  | true =>
      rw [hcb] at h
      simp only [show ((true = false) = False) by simp, if_false] at h
      rw [epure, ebind_ok] at h
      cases ha : assembleWords env regs with
      | error e => rw [ha, ebind_error] at h; exact absurd h (by simp)
      | ok aw =>
          rw [ha, ebind_ok] at h
          exact ⟨aw, rfl, h⟩

/-- C9: for two `RegSpec`s with the same `(measurement, fieldName)` key,
a successful cycle's snapshot holds, under that measurement and field
key, the decoded value of whichever spec appears later in the register
list's iteration order (last write wins, silently). -/
theorem snapshot_last_write_wins (cfg : Config) (env : Env)
    (xs ys : List RegSpec) (t : RegSpec)
    (hok : (runCycle cfg env (xs ++ t :: ys)).isOk = true)
    (hlast : ∀ u ∈ ys, ¬(u.measurement = t.measurement ∧ fieldKey u = fieldKey t))
    (hpair : ∃ s ∈ xs, s.measurement = t.measurement ∧ fieldKey s = fieldKey t) :
    ∃ c aw v,
      runCycle cfg env (xs ++ t :: ys) = .ok c ∧
      assembleWords env (xs ++ t :: ys) = .ok aw ∧
      decodeSpec cfg.decimals aw t = .ok v ∧
      ∃ fields, dictGet t.measurement c = some fields ∧
        dictGet (fieldKey t) fields = some v := by
  obtain ⟨c, hc⟩ : ∃ c, runCycle cfg env (xs ++ t :: ys) = .ok c := by
    cases h : runCycle cfg env (xs ++ t :: ys) with
    | ok c => exact ⟨c, rfl⟩
    | error e => rw [h] at hok; exact absurd hok (by simp [Except.isOk, Except.toBool])
  obtain ⟨aw, haw, hbuild⟩ := runCycle_ok_parts cfg env _ c hc
  obtain ⟨cmid, h1, h2⟩ := buildCacheAux_ok_split cfg.decimals aw xs (t :: ys) [] c hbuild
  cases hd : decodeSpec cfg.decimals aw t with
  | error e => rw [buildCacheAux, hd, ebind_error] at h2; exact absurd h2 (by simp)
  | ok v =>
      rw [buildCacheAux, hd, ebind_ok] at h2
      have hstart : lookupField (cacheInsert cmid t.measurement (fieldKey t) v)
          t.measurement (fieldKey t) = some v :=
        lookupField_cacheInsert_self cmid t.measurement (fieldKey t) v
      have hend := buildCacheAux_preserve cfg.decimals aw t.measurement (fieldKey t) v
        ys _ c h2 hlast hstart
      obtain ⟨fields, hf, hg⟩ :
          ∃ fields, dictGet t.measurement c = some fields ∧
            dictGet (fieldKey t) fields = some v := by
        cases hgm : dictGet t.measurement c with
        | none => rw [lookupField, hgm] at hend; exact absurd hend (by simp)
        | some fields =>
            rw [lookupField, hgm] at hend
            exact ⟨fields, rfl, by simpa using hend⟩
      exact ⟨c, aw, v, hc, haw, hd, fields, hf, hg⟩

/-! ## Decoder claims -/

/-- C8: for a single word `[w]`, `combine` returns `w & 0xFFFF`, except
that for dtype `int16` with bit 15 of `w` set it returns
`(w & 0xFFFF) - 0x10000`; in particular `0x8000 ↦ -32768` and
`0x7FFF ↦ 32767`. -/
theorem combine_words_single :
    (∀ (w : ℕ) (dtype bo : String),
      combine_words [w] dtype bo =
        if dtype = "int16" ∧ w / 2 ^ 15 % 2 = 1 then ((w % 65536 : ℕ) : ℤ) - 65536
        else ((w % 65536 : ℕ) : ℤ)) ∧
    combine_words [0x8000] ("int16") ("AB") = -32768 ∧
    combine_words [0x7FFF] ("int16") ("AB") = 32767 := by
  refine ⟨fun w dtype bo => ?_, by decide, by decide⟩
  show (if dtype = "int16" ∧ 32768 ≤ w % 65536 then ((w % 65536 : ℕ) : ℤ) - 65536
    else ((w % 65536 : ℕ) : ℤ)) = _
  exact if_congr (and_congr_right fun _ => by omega) rfl rfl

/-- C6 (counterexample): with byte order ABCD the high word is
`words[0] = 0x0000`, so the combined value is `0x8000 = 32768`, not
`-2147483648` as the claim states. -/
theorem combine_abcd_counterexample :
    combine_words [0x0000, 0x8000] ("int32") ("ABCD") = 32768 ∧
    ¬ combine_words [0x0000, 0x8000] ("int32") ("ABCD") = -2147483648 := by
  decide

/-- C6 (amended): with byte order CDAB the high word is
`words[1] = 0x8000`, the combined value is `0x80000000`, and the int32
sign rule yields `-2147483648`. -/
theorem combine_cdab_sign :
    combine_words [0x0000, 0x8000] ("int32") ("CDAB") = -2147483648 := by
  decide

/-- C7 (counterexample): for dtype int32 with bit 31 of the combined
value set, `combine` does not return `(high << 16) | low` itself but its
two's-complement reading: `[0xFFFF, 0xFFFF]` yields `-1`, not
`0xFFFF * 2^16 + 0xFFFF`. -/
theorem combine_two_counterexample :
    combine_words [0xFFFF, 0xFFFF] ("int32") ("ABCD") = -1 ∧
    ¬ combine_words [0xFFFF, 0xFFFF] ("int32") ("ABCD") =
      ((0xFFFF * 65536 + 0xFFFF : ℕ) : ℤ) := by
  decide

/-- C7 (amended): for two 16-bit words, CDAB takes `words[1]` as high
word and `words[0]` as low word, any other byte order (incl. the default
ABCD) takes `words[0]` as high and `words[1]` as low, and the result is
`(high << 16) | low` — read as a two's-complement 32-bit value when the
dtype is int32; in particular `combine([0x0001,0x0000],uint32,CDAB) = 1`. -/
theorem combine_words_two :
    (∀ (a b : ℕ) (dtype bo : String), a < 65536 → b < 65536 →
      combine_words [a, b] dtype bo =
        (let hi := if bo = "CDAB" then b else a
         let lo := if bo = "CDAB" then a else b
         if dtype = "int32" ∧ 2147483648 ≤ hi * 65536 + lo
         then ((hi * 65536 + lo : ℕ) : ℤ) - 4294967296
         else ((hi * 65536 + lo : ℕ) : ℤ))) ∧
    combine_words [0x0001, 0x0000] ("uint32") ("CDAB") = 1 := by
  refine ⟨fun a b dtype bo ha hb => ?_, by decide⟩
  show (let w0 := a % 65536
        let w1 := b % 65536
        let hi := if bo = "CDAB" then w1 else w0
        let lo := if bo = "CDAB" then w0 else w1
        let val := hi * 65536 + lo
        if dtype = "int32" ∧ 2147483648 ≤ val then ((val : ℕ) : ℤ) - 4294967296
        else ((val : ℕ) : ℤ)) = _
  rw [Nat.mod_eq_of_lt ha, Nat.mod_eq_of_lt hb]

/-! ## Poller / circuit-breaker claims -/

/-- C1: while the breaker is open (now strictly before `openUntil`), a
tick leaves the whole state unchanged — and since this holds for every
environment, no transport read or connect is attempted. -/
theorem breaker_open_noop (cfg : Config) (env : Env) (now : ℚ) (s : AppState)
    (h : now < s.breaker_open_until) :
    refreshCache cfg env now s = s := by
  unfold refreshCache
  exact if_pos h

/-- C2: a successful cycle resets the failure count to 0; a failed cycle
increments it by 1, and sets `openUntil := now + CB_OPEN_SECONDS` exactly
when the incremented count reaches `CB_FAIL_LIMIT` (otherwise `openUntil`
is untouched). -/
theorem breaker_lifecycle (cfg : Config) (env : Env) (now : ℚ) (s : AppState)
    (hallow : ¬ now < s.breaker_open_until) :
    ((runCycle cfg env s.regs).isOk = true →
      (refreshCache cfg env now s).breaker_failures = 0) ∧
    ((runCycle cfg env s.regs).isOk = false →
      (refreshCache cfg env now s).breaker_failures = s.breaker_failures + 1 ∧
      (cfg.failLimit ≤ s.breaker_failures + 1 →
        (refreshCache cfg env now s).breaker_open_until = now + cfg.openSeconds) ∧
      (s.breaker_failures + 1 < cfg.failLimit →
        (refreshCache cfg env now s).breaker_open_until = s.breaker_open_until)) := by
  unfold refreshCache
  rw [if_neg hallow]
  cases h : runCycle cfg env s.regs with
  | ok c =>
      refine ⟨fun _ => rfl, fun hfalse => absurd hfalse (by simp [Except.isOk, Except.toBool])⟩
  | error e =>
      refine ⟨fun htrue => absurd htrue (by simp [Except.isOk, Except.toBool]), fun _ => ⟨rfl, ?_, ?_⟩⟩
      · intro hlim
        simp only [if_pos hlim]
      · intro hlt
        simp only [if_neg (by omega : ¬ cfg.failLimit ≤ s.breaker_failures + 1)]

/-- C3: a failed cycle never touches the cache snapshot, its timestamp,
or the register list; the only state it changes is the failure counter
(incremented by 1) and possibly `openUntil`. -/
theorem failed_cycle_keeps_cache (cfg : Config) (env : Env) (now : ℚ) (s : AppState)
    (hallow : ¬ now < s.breaker_open_until)
    (hfail : (runCycle cfg env s.regs).isOk = false) :
    (refreshCache cfg env now s).cache = s.cache ∧
    (refreshCache cfg env now s).cache_ts = s.cache_ts ∧
    (refreshCache cfg env now s).regs = s.regs ∧
    (refreshCache cfg env now s).breaker_failures = s.breaker_failures + 1 ∧
    ((refreshCache cfg env now s).breaker_open_until = s.breaker_open_until ∨
      (refreshCache cfg env now s).breaker_open_until = now + cfg.openSeconds) := by
  unfold refreshCache
  rw [if_neg hallow]
  cases h : runCycle cfg env s.regs with
  | ok c => rw [h] at hfail; exact absurd hfail (by simp [Except.isOk, Except.toBool])
  | error e =>
      refine ⟨rfl, rfl, rfl, rfl, ?_⟩
      by_cases hlim : cfg.failLimit ≤ s.breaker_failures + 1
      · right; simp only [if_pos hlim]
      · left; simp only [if_neg hlim]

/-! ## Range-planner lemmas -/

theorem pairwise_and {α : Type} {R S : α → α → Prop} :
    ∀ {l : List α}, l.Pairwise R → l.Pairwise S →
      l.Pairwise (fun a b => R a b ∧ S a b)
  | [], _, _ => List.Pairwise.nil
  | a :: l, hR, hS => by
      rw [List.pairwise_cons] at hR hS ⊢
      exact ⟨fun b hb => ⟨hR.1 b hb, hS.1 b hb⟩, pairwise_and hR.2 hS.2⟩

theorem pairwise_imp_mem {α : Type} {R S : α → α → Prop} :
    ∀ {l : List α}, (∀ a ∈ l, ∀ b ∈ l, R a b → S a b) → l.Pairwise R → l.Pairwise S
  | [], _, _ => List.Pairwise.nil
  | a :: l, h, hR => by
      rw [List.pairwise_cons] at hR ⊢
      refine ⟨fun b hb => h a (List.mem_cons_self _ _) b (List.mem_cons_of_mem _ hb) (hR.1 b hb),
        pairwise_imp_mem ?_ hR.2⟩
      intro x hx y hy
      exact h x (List.mem_cons_of_mem _ hx) y (List.mem_cons_of_mem _ hy)

/-- Every member of the running group, and every remaining spec, ends up
inside some plan emitted by `mergeAux`. -/
theorem mergeAux_covers (rest : List RegSpec) :
    ∀ (start e : ℤ) (grp : List RegSpec),
      (∀ g ∈ grp, start ≤ g.address ∧ g.address + g.count - 1 ≤ e) →
      (∀ r ∈ rest, start ≤ r.address) →
      List.Pairwise byAddress rest →
      ∀ s, s ∈ grp ∨ s ∈ rest →
        ∃ p ∈ mergeAux start e grp rest,
          p.1 ≤ s.address ∧ s.address + s.count - 1 ≤ p.1 + p.2.1 - 1 := by
  induction rest with
  | nil =>
      intro start e grp hgrp _ _ s hs
      rcases hs with hs | hs
      · refine ⟨(start, e - start + 1, grp.reverse), by simp [mergeAux], (hgrp s hs).1, ?_⟩
        have h2 := (hgrp s hs).2
        show s.address + s.count - 1 ≤ start + (e - start + 1) - 1
        omega
      · cases hs
  | cons nxt rest ih =>
      intro start e grp hgrp hge hsort s hs
      simp only [mergeAux]
      by_cases hc : nxt.address ≤ e + 2 ∧ nxt.address + nxt.count - 1 - start + 1 ≤ 120
      · rw [if_pos hc]
        apply ih
        · intro g hg
          rcases List.mem_cons.1 hg with rfl | hg'
          · exact ⟨hge g (List.mem_cons_self _ _), le_max_right _ _⟩
          · obtain ⟨hg1, hg2⟩ := hgrp g hg'
            exact ⟨hg1, le_trans hg2 (le_max_left _ _)⟩
        · intro r hr
          exact hge r (List.mem_cons_of_mem _ hr)
        · exact (List.pairwise_cons.1 hsort).2
        · rcases hs with hs | hs
          · exact Or.inl (List.mem_cons_of_mem _ hs)
          · rcases List.mem_cons.1 hs with rfl | hs'
            · exact Or.inl (List.mem_cons_self _ _)
            · exact Or.inr hs'
      · rw [if_neg hc]
        rcases hs with hs | hs
        · refine ⟨(start, e - start + 1, grp.reverse), List.mem_cons_self _ _,
            (hgrp s hs).1, ?_⟩
          have h2 := (hgrp s hs).2
          show s.address + s.count - 1 ≤ start + (e - start + 1) - 1
          omega
        · obtain ⟨p, hp, hb1, hb2⟩ := ih nxt.address (nxt.address + nxt.count - 1) [nxt]
            (by
              intro g hg
              rcases List.mem_singleton.1 hg with rfl
              exact ⟨le_refl _, le_refl _⟩)
            (fun r hr => (List.pairwise_cons.1 hsort).1 r hr)
            ((List.pairwise_cons.1 hsort).2)
            s
            (by
              rcases List.mem_cons.1 hs with rfl | hs'
              · exact Or.inl (List.mem_singleton.2 rfl)
              · exact Or.inr hs')
          exact ⟨p, List.mem_cons_of_mem _ hp, hb1, hb2⟩

/-- Every spec is covered (over its full extent) by one of the plans of
`merge_ranges`. -/
theorem merge_ranges_covers (specs : List RegSpec) (s : RegSpec) (hs : s ∈ specs) :
    ∃ p ∈ merge_ranges specs,
      p.1 ≤ s.address ∧ s.address + s.count - 1 ≤ p.1 + p.2.1 - 1 := by
  have hmem : s ∈ List.insertionSort byAddress specs :=
    (List.mem_insertionSort byAddress).2 hs
  have hsorted := List.sorted_insertionSort byAddress specs
  unfold merge_ranges
  cases h : List.insertionSort byAddress specs with
  | nil => rw [h] at hmem; cases hmem
  | cons s0 rest =>
      rw [h] at hmem hsorted
      apply mergeAux_covers rest s0.address (s0.address + s0.count - 1) [s0]
      · intro g hg
        rcases List.mem_singleton.1 hg with rfl
        exact ⟨le_refl _, le_refl _⟩
      · intro r hr
        exact List.rel_of_sorted_cons hsorted r hr
      · exact (List.sorted_cons.1 hsorted).2
      · rcases List.mem_cons.1 hmem with rfl | hs'
        · exact Or.inl (List.mem_singleton.2 rfl)
        · exact Or.inr hs'

/-- On a staircase of disjoint, sorted specs, `mergeAux` produces plans
whose intervals appear in strictly increasing, non-touching order. -/
theorem mergeAux_chain (rest : List RegSpec) :
    ∀ (start e : ℤ) (grp : List RegSpec),
      start ≤ e →
      List.Pairwise (fun a b : RegSpec => a.address + a.count - 1 < b.address) rest →
      (∀ r ∈ rest, e < r.address) →
      (∀ r ∈ rest, 1 ≤ r.count) →
      List.Pairwise (fun p q : Plan => p.1 + p.2.1 - 1 < q.1) (mergeAux start e grp rest) ∧
      ∀ p ∈ mergeAux start e grp rest, start ≤ p.1 := by
  induction rest with
  | nil =>
      intro start e grp _ _ _ _
      refine ⟨by simp [mergeAux], ?_⟩
      intro p hp
      rcases List.mem_singleton.1 hp with rfl
      exact le_refl _
  | cons nxt rest ih =>
      intro start e grp hse hstair hgt hcnt
      simp only [mergeAux]
      by_cases hc : nxt.address ≤ e + 2 ∧ nxt.address + nxt.count - 1 - start + 1 ≤ 120
      · rw [if_pos hc]
        apply ih
        · exact le_trans hse (le_max_left _ _)
        · exact (List.pairwise_cons.1 hstair).2
        · intro r hr
          exact max_lt (hgt r (List.mem_cons_of_mem _ hr))
            ((List.pairwise_cons.1 hstair).1 r hr)
        · intro r hr
          exact hcnt r (List.mem_cons_of_mem _ hr)
      · rw [if_neg hc]
        have hnn : nxt.address ≤ nxt.address + nxt.count - 1 := by
          have := hcnt nxt (List.mem_cons_self _ _)
          omega
        obtain ⟨hpair, hstarts⟩ := ih nxt.address (nxt.address + nxt.count - 1) [nxt]
          hnn
          ((List.pairwise_cons.1 hstair).2)
          (fun r hr => (List.pairwise_cons.1 hstair).1 r hr)
          (fun r hr => hcnt r (List.mem_cons_of_mem _ hr))
        have hnext : e < nxt.address := hgt nxt (List.mem_cons_self _ _)
        constructor
        · rw [List.pairwise_cons]
          refine ⟨?_, hpair⟩
          intro q hq
          have h1 : nxt.address ≤ q.1 := hstarts q hq
          show start + (e - start + 1) - 1 < q.1
          omega
        · intro p hp
          rcases List.mem_cons.1 hp with rfl | hp'
          · exact le_refl _
          · have h1 := hstarts p hp'
            omega

/-- For specs with positive counts and pairwise-disjoint extents, the
plans of `merge_ranges` form a strictly increasing chain of intervals. -/
theorem merge_ranges_chain (specs : List RegSpec)
    (hcnt : ∀ s ∈ specs, 1 ≤ s.count)
    (hdisj : List.Pairwise (fun s t : RegSpec =>
      s.address + s.count - 1 < t.address ∨ t.address + t.count - 1 < s.address) specs) :
    List.Pairwise (fun p q : Plan => p.1 + p.2.1 - 1 < q.1) (merge_ranges specs) := by
  have hperm := List.perm_insertionSort byAddress specs
  have hsorted := List.sorted_insertionSort byAddress specs
  have hcnt' : ∀ s ∈ List.insertionSort byAddress specs, 1 ≤ s.count := by
    intro s hs
    exact hcnt s ((List.mem_insertionSort byAddress).1 hs)
  have hdisj' : List.Pairwise (fun s t : RegSpec =>
      s.address + s.count - 1 < t.address ∨ t.address + t.count - 1 < s.address)
      (List.insertionSort byAddress specs) :=
    (List.Perm.pairwise_iff (fun hxy => hxy.symm) hperm).2 hdisj
  have hstair : List.Pairwise (fun a b : RegSpec => a.address + a.count - 1 < b.address)
      (List.insertionSort byAddress specs) := by
    refine pairwise_imp_mem ?_ (pairwise_and hsorted hdisj')
    rintro a _ b hb ⟨hle, hd⟩
    rcases hd with h | h
    · exact h
    · exfalso
      have hcb := hcnt' b hb
      have hle' : a.address ≤ b.address := hle
      omega
  unfold merge_ranges
  cases h : List.insertionSort byAddress specs with
  | nil => simp
  | cons s0 rest =>
      rw [h] at hstair hcnt'
      exact (mergeAux_chain rest s0.address (s0.address + s0.count - 1) [s0]
        (by have := hcnt' s0 (List.mem_cons_self _ _); omega)
        ((List.pairwise_cons.1 hstair).2)
        (fun r hr => (List.pairwise_cons.1 hstair).1 r hr)
        (fun r hr => hcnt' r (List.mem_cons_of_mem _ hr))).1

/-- C4 (amended): the plans of `merge_ranges` together contain every
address every spec occupies; and provided every spec has `count ≥ 1` and
the specs' own address extents are pairwise disjoint, the address
intervals of any two distinct plans are disjoint. -/
theorem merge_ranges_cover_disjoint (specs : List RegSpec) :
    (∀ s ∈ specs, ∀ a : ℤ, s.address ≤ a → a ≤ s.address + s.count - 1 →
      ∃ p ∈ merge_ranges specs, p.1 ≤ a ∧ a ≤ p.1 + p.2.1 - 1) ∧
    ((∀ s ∈ specs, 1 ≤ s.count) →
      List.Pairwise (fun s t : RegSpec =>
        s.address + s.count - 1 < t.address ∨ t.address + t.count - 1 < s.address) specs →
      ∀ p ∈ merge_ranges specs, ∀ q ∈ merge_ranges specs, p ≠ q → ∀ a : ℤ,
        ¬((p.1 ≤ a ∧ a ≤ p.1 + p.2.1 - 1) ∧ (q.1 ≤ a ∧ a ≤ q.1 + q.2.1 - 1))) := by
  constructor
  · intro s hs a h1 h2
    obtain ⟨p, hp, hb1, hb2⟩ := merge_ranges_covers specs s hs
    exact ⟨p, hp, by omega, by omega⟩
  · intro hcnt hdisj
    have hchain := merge_ranges_chain specs hcnt hdisj
    have hpw : List.Pairwise (fun p q : Plan => ∀ a : ℤ,
        ¬((p.1 ≤ a ∧ a ≤ p.1 + p.2.1 - 1) ∧ (q.1 ≤ a ∧ a ≤ q.1 + q.2.1 - 1)))
        (merge_ranges specs) :=
      hchain.imp (fun h a hcontra => by omega)
    have hsym : Symmetric (fun p q : Plan => ∀ a : ℤ,
        ¬((p.1 ≤ a ∧ a ≤ p.1 + p.2.1 - 1) ∧ (q.1 ≤ a ∧ a ≤ q.1 + q.2.1 - 1))) := by
      intro p q h a hc
      exact h a ⟨hc.2, hc.1⟩
    intro p hp q hq hne a
    exact hpw.forall hsym hp hq hne a

/-- C4 (counterexample): when spec extents themselves overlap, two
distinct plans can overlap — specs `(address 0, count 120)` and
`(address 119, count 3)` give plans `(0, 120)` and `(119, 3)`, which both
contain address 119. -/
theorem merge_ranges_overlap_counterexample :
    (merge_ranges [{ id := "a", address := 0, count := 120 },
        { id := "b", address := 119, count := 3 }]).map (fun p => (p.1, p.2.1)) =
      [(0, 120), (119, 3)] ∧
    ((0 : ℤ) ≤ 119 ∧ (119 : ℤ) ≤ 0 + 120 - 1) ∧
    ((119 : ℤ) ≤ 119 ∧ (119 : ℤ) ≤ 119 + 3 - 1) := by
  decide

/-- C5: a spec whose own count exceeds 120 still gets a plan covering its
full extent, with quantity at least its count — the 120-word ceiling only
gates merging, it never truncates a group. -/
theorem merge_ranges_oversized (specs : List RegSpec) (s : RegSpec)
    (hs : s ∈ specs) (hbig : 120 < s.count) :
    ∃ p ∈ merge_ranges specs,
      p.1 ≤ s.address ∧ s.address + s.count - 1 ≤ p.1 + p.2.1 - 1 ∧ s.count ≤ p.2.1 := by
  obtain ⟨p, hp, h1, h2⟩ := merge_ranges_covers specs s hs
  exact ⟨p, hp, h1, h2, by omega⟩

/-- C10: each measurement object of the GET payload is built by setting
`"name"` to the measurement name first and then inserting every decoded
field, so a decoded field literally called `"name"` replaces the
measurement name in the returned object. -/
theorem handle_get_name_shadowed (c : Cache) (m : String) (fields : Fields) (v : ℚ)
    (hin : (m, fields) ∈ c) (hnodup : (fields.map Prod.fst).Nodup)
    (hv : dictGet ("name") fields = some v) :
    ∃ obj ∈ handle_get c, dictGet ("name") obj = some (JVal.num v) ∧
      ∀ str : String, dictGet ("name") obj ≠ some (JVal.str str) := by
  refine ⟨buildObj m fields, ?_, ?_, ?_⟩
  · exact List.mem_map_of_mem (fun p => buildObj p.1 p.2) hin
  · exact buildObj_dictGet_hit fields _ _ v hnodup hv
  · intro str
    rw [show buildObj m fields =
      fields.foldl (fun o kv => dictSet o kv.1 (JVal.num kv.2))
        [(("name" : String), JVal.str m)] from rfl,
      buildObj_dictGet_hit fields _ _ v hnodup hv]
    simp

/-! ## Witnesses: the claim theorems applied at concrete inputs -/

/-- Witness for C1 at a state whose breaker is open until t = 5, at t = 0. -/
theorem breaker_open_noop_witness :
    ((0 : ℚ) < openState.breaker_open_until) ∧
    refreshCache ⟨3, 30, 2⟩ failEnv 0 openState = openState :=
  ⟨by decide, breaker_open_noop ⟨3, 30, 2⟩ failEnv 0 openState (by decide)⟩

/-- Witness for C2: a failing cycle with `CB_FAIL_LIMIT = 1` at t = 0. -/
theorem breaker_lifecycle_witness :
    (¬ (0 : ℚ) < emptyState.breaker_open_until) ∧
    (((runCycle ⟨1, 30, 2⟩ failEnv emptyState.regs).isOk = true →
        (refreshCache ⟨1, 30, 2⟩ failEnv 0 emptyState).breaker_failures = 0) ∧
      ((runCycle ⟨1, 30, 2⟩ failEnv emptyState.regs).isOk = false →
        (refreshCache ⟨1, 30, 2⟩ failEnv 0 emptyState).breaker_failures =
          emptyState.breaker_failures + 1 ∧
        ((⟨1, 30, 2⟩ : Config).failLimit ≤ emptyState.breaker_failures + 1 →
          (refreshCache ⟨1, 30, 2⟩ failEnv 0 emptyState).breaker_open_until =
            0 + (⟨1, 30, 2⟩ : Config).openSeconds) ∧
        (emptyState.breaker_failures + 1 < (⟨1, 30, 2⟩ : Config).failLimit →
          (refreshCache ⟨1, 30, 2⟩ failEnv 0 emptyState).breaker_open_until =
            emptyState.breaker_open_until))) :=
  ⟨by decide, breaker_lifecycle ⟨1, 30, 2⟩ failEnv 0 emptyState (by decide)⟩

/-- Witness for C3: the same failing cycle leaves cache, timestamp and
register list untouched. -/
theorem failed_cycle_keeps_cache_witness :
    (¬ (0 : ℚ) < emptyState.breaker_open_until) ∧
    ((runCycle ⟨2, 30, 2⟩ failEnv emptyState.regs).isOk = false) ∧
    ((refreshCache ⟨2, 30, 2⟩ failEnv 0 emptyState).cache = emptyState.cache ∧
      (refreshCache ⟨2, 30, 2⟩ failEnv 0 emptyState).cache_ts = emptyState.cache_ts ∧
      (refreshCache ⟨2, 30, 2⟩ failEnv 0 emptyState).regs = emptyState.regs ∧
      (refreshCache ⟨2, 30, 2⟩ failEnv 0 emptyState).breaker_failures =
        emptyState.breaker_failures + 1 ∧
      ((refreshCache ⟨2, 30, 2⟩ failEnv 0 emptyState).breaker_open_until =
          emptyState.breaker_open_until ∨
        (refreshCache ⟨2, 30, 2⟩ failEnv 0 emptyState).breaker_open_until =
          0 + (⟨2, 30, 2⟩ : Config).openSeconds)) :=
  ⟨by decide, by decide,
    failed_cycle_keeps_cache ⟨2, 30, 2⟩ failEnv 0 emptyState (by decide) (by decide)⟩

/-- Witness for C4 on two disjoint specs: address 10 is covered, and the
two emitted plans are interval-disjoint. -/
theorem merge_ranges_cover_disjoint_witness :
    (∃ p ∈ merge_ranges [specC, specD], p.1 ≤ 10 ∧ (10 : ℤ) ≤ p.1 + p.2.1 - 1) ∧
    (∀ p ∈ merge_ranges [specC, specD], ∀ q ∈ merge_ranges [specC, specD], p ≠ q →
      ∀ a : ℤ, ¬((p.1 ≤ a ∧ a ≤ p.1 + p.2.1 - 1) ∧ (q.1 ≤ a ∧ a ≤ q.1 + q.2.1 - 1))) :=
  ⟨(merge_ranges_cover_disjoint [specC, specD]).1 specD (by decide) 10 (by decide) (by decide),
    (merge_ranges_cover_disjoint [specC, specD]).2 (by decide) (by decide)⟩

/-- Witness for C5: a lone 121-word spec still yields a covering plan of
quantity at least 121. -/
theorem merge_ranges_oversized_witness :
    specBig ∈ [specBig] ∧ (120 : ℤ) < specBig.count ∧
    (∃ p ∈ merge_ranges [specBig], p.1 ≤ specBig.address ∧
      specBig.address + specBig.count - 1 ≤ p.1 + p.2.1 - 1 ∧ specBig.count ≤ p.2.1) :=
  ⟨by decide, by decide, merge_ranges_oversized [specBig] specBig (by decide) (by decide)⟩

/-- Witness for C7 at `[1, 2]` with dtype uint32 and byte order ABCD. -/
theorem combine_words_two_witness :
    (1 : ℕ) < 65536 ∧ (2 : ℕ) < 65536 ∧
    combine_words [1, 2] ("uint32") ("ABCD") =
      (let hi := if ("ABCD" : String) = "CDAB" then 2 else 1
       let lo := if ("ABCD" : String) = "CDAB" then 1 else 2
       if ("uint32" : String) = "int32" ∧ 2147483648 ≤ hi * 65536 + lo
       then ((hi * 65536 + lo : ℕ) : ℤ) - 4294967296
       else ((hi * 65536 + lo : ℕ) : ℤ)) :=
  ⟨by decide, by decide, combine_words_two.1 1 2 ("uint32") ("ABCD") (by decide) (by decide)⟩

/-- Witness for C9: two specs with the same key, a successful cycle; the
snapshot keeps the later spec's decoded value. -/
theorem snapshot_last_write_wins_witness :
    ((runCycle ⟨3, 30, 2⟩ okEnv ([specA] ++ specB :: [])).isOk = true) ∧
    (∀ u ∈ ([] : List RegSpec),
      ¬(u.measurement = specB.measurement ∧ fieldKey u = fieldKey specB)) ∧
    (∃ s ∈ [specA], s.measurement = specB.measurement ∧ fieldKey s = fieldKey specB) ∧
    (∃ c aw v, runCycle ⟨3, 30, 2⟩ okEnv ([specA] ++ specB :: []) = .ok c ∧
      assembleWords okEnv ([specA] ++ specB :: []) = .ok aw ∧
      decodeSpec 2 aw specB = .ok v ∧
      ∃ fields, dictGet specB.measurement c = some fields ∧
        dictGet (fieldKey specB) fields = some v) :=
  ⟨by decide, by decide, by decide,
    snapshot_last_write_wins ⟨3, 30, 2⟩ okEnv [specA] [] specB
      (by decide) (by decide) (by decide)⟩

/-- Witness for C10: a snapshot with a decoded field literally called
"name"; the GET object maps "name" to that number, not to the
measurement name. -/
theorem handle_get_name_shadowed_witness :
    ((("deye" : String), [(("name" : String), (3 : ℚ))]) ∈
        ([(("deye" : String), [(("name" : String), (3 : ℚ))])] : Cache)) ∧
    (([(("name" : String), (3 : ℚ))].map Prod.fst).Nodup) ∧
    dictGet ("name") [(("name" : String), (3 : ℚ))] = some 3 ∧
    (∃ obj ∈ handle_get [(("deye" : String), [(("name" : String), (3 : ℚ))])],
      dictGet ("name") obj = some (JVal.num 3) ∧
      ∀ str : String, dictGet ("name") obj ≠ some (JVal.str str)) :=
  ⟨by decide, by decide, by decide,
    handle_get_name_shadowed [(("deye" : String), [(("name" : String), (3 : ℚ))])]
      ("deye") [(("name" : String), (3 : ℚ))] 3 (by decide) (by decide) (by decide)⟩

end DeyeProxy
